/-
  Verification of the ALBERT model definition
  (src/transformer-mrc/transformers/modeling_albert.py).

  The Python source is shallowly embedded: tensors are lists of rationals
  or functions on `Fin`, Python float arithmetic on the small loop indices
  is modelled as exact rational arithmetic, TensorFlow/PyTorch framework
  primitives that the file merely calls (CrossEntropyLoss, MSELoss,
  nn.Linear, str.replace) are given explicit executable semantics matching
  their documented behaviour, and the control flow of each `forward`
  method is transcribed directly.
-/
import Mathlib

namespace Albert

/-! # Definitions -/

/-! ## AlbertTransformer.forward (lines 314-347)

`group_idx = int(i / (self.config.num_hidden_layers / self.config.num_hidden_groups))`
uses Python float ("true") division: both divisions are IEEE-754 binary64
operations, i.e. the exact rational quotient of the operand values rounded
to 53 significand bits with round-to-nearest, ties-to-even.  `fl64` below
is that rounding for the normal range (the magnitudes reachable here never
overflow or go subnormal); `int` truncates, which on the nonnegative
quotient is the floor. -/

/-- Round a rational to the nearest integer, ties to even. -/
def rnEven (y : ℚ) : ℤ :=
  if y - ⌊y⌋ < 1 / 2 then ⌊y⌋
  else if 1 / 2 < y - ⌊y⌋ then ⌊y⌋ + 1
  else if ⌊y⌋ % 2 = 0 then ⌊y⌋ else ⌊y⌋ + 1

/-- Binary exponent of `x` with `0 < x < 2`, by fuelled doubling:
the `e` with `2 ^ e ≤ x < 2 ^ (e + 1)`. -/
def lg2Down : ℕ → ℚ → ℤ
  | 0, _ => 0
  | fuel + 1, x => if 1 ≤ x then 0 else lg2Down fuel (2 * x) - 1

/-- Binary exponent of `x` with `1 ≤ x`, by fuelled halving. -/
def lg2Up : ℕ → ℚ → ℤ
  | 0, _ => 0
  | fuel + 1, x => if x < 2 then 0 else lg2Up fuel (x / 2) + 1

/-- Binary exponent of a positive rational: the `e` with
`2 ^ e ≤ x < 2 ^ (e + 1)`.  The fuel (numerator for halving, denominator
for doubling) always suffices. -/
def qlog2 (x : ℚ) : ℤ :=
  if 1 ≤ x then lg2Up x.num.natAbs x else lg2Down x.den x

/-- Round a positive rational to IEEE-754 binary64 (normal range): scale
into `[2^52, 2^53)`, round to the nearest integer significand with ties
to even, scale back. -/
def flPos (x : ℚ) : ℚ :=
  let e := qlog2 x
  (rnEven (x * (2 : ℚ) ^ (52 - e)) : ℚ) * (2 : ℚ) ^ (e - 52)

/-- IEEE-754 binary64 rounding of a rational in the normal range. -/
def fl64 (x : ℚ) : ℚ :=
  if x = 0 then 0 else if x < 0 then -flPos (-x) else flPos x

/-- Embedding of `int(i / (num_hidden_layers / num_hidden_groups))` from
`AlbertTransformer.forward` (line 327): both true divisions are binary64
divisions (the integer operands below `2^53` are exact as floats, and an
IEEE division returns the correctly rounded exact quotient), and `int`
truncates the nonnegative result. -/
def groupIdx (L G i : ℕ) : ℕ :=
  ⌊fl64 ((i : ℚ) / fl64 ((L : ℚ) / (G : ℚ)))⌋₊

/-- The claim's formula for the group index,
`floor(i / (num_hidden_layers / num_hidden_groups))` in exact
arithmetic. -/
def groupIdxExact (L G i : ℕ) : ℕ :=
  ⌊(i : ℚ) / ((L : ℚ) / (G : ℚ))⌋₊

/-- Embedding of `layers_per_group = int(num_hidden_layers / num_hidden_groups)`
(line 324). -/
def layersPerGroup (L G : ℕ) : ℕ := L / G

/-- The sequence of layer-group indices used by the loop
`for i in range(self.config.num_hidden_layers)` (lines 322-339):
iteration `i` invokes `self.albert_layer_groups[group_idx]`. -/
def transformerTrace (L G : ℕ) : List ℕ :=
  (List.range L).map (groupIdx L G)

/-- Embedding of the data flow of `AlbertTransformer.forward`
(lines 314-347): map the embedding output through
`embedding_hidden_mapping_in`, then repeatedly apply the selected layer
group.  `groups k` is the forward pass of `albert_layer_groups[k]`,
`embedMap` is `embedding_hidden_mapping_in`; attention and head masks are
captured inside those functions, which is faithful because they are loop
invariants up to the group index. -/
def albertTransformerForward {α : Type} (L G : ℕ) (embedMap : α → α)
    (groups : ℕ → α → α) (h : α) : α :=
  (List.range L).foldl (fun s i => groups (groupIdx L G i) s) (embedMap h)

/-! ## load_tf_weights_in_albert: checkpoint-name remapping (lines 70-107)

Python strings are embedded as `List Char`; `str.replace` (replace every
non-overlapping occurrence, scanning left to right, never rescanning the
substituted text) is `replaceAll`; `in` on strings is `containsSub`;
`split("/")` is `List.splitOn '/'`. -/

/-- Semantics of Python `s.replace(pat, rep)`: scan left to right, replace
each non-overlapping occurrence of `pat` by `rep`, resume after the
replaced text.  `fuel` bounds the number of scan steps; every step
consumes at least one character, so `s.length` fuel is always enough. -/
def replaceAllF (pat rep : List Char) : ℕ → List Char → List Char
  | _, [] => []
  | 0, s => s
  | fuel + 1, c :: rest =>
    if pat ≠ [] ∧ pat.isPrefixOf (c :: rest) then
      rep ++ replaceAllF pat rep fuel (rest.drop (pat.length - 1))
    else
      c :: replaceAllF pat rep fuel rest

/-- Python `s.replace(pat, rep)`. -/
def replaceAll (pat rep s : List Char) : List Char :=
  replaceAllF pat rep s.length s

/-- Semantics of Python `pat in s` on strings: substring containment. -/
def containsSub (pat : List Char) : List Char → Bool
  | [] => pat.isEmpty
  | c :: rest => pat.isPrefixOf (c :: rest) || containsSub pat rest

/-- The literal substring substitutions of lines 74-103, in source order. -/
def albertNameSubs : List (String × String) :=
  [("module/", ""), ("ffn_1", "ffn"), ("bert/", "albert/"),
   ("attention_1", "attention"), ("transform/", ""),
   ("LayerNorm_1", "full_layer_layer_norm"),
   ("LayerNorm", "attention/LayerNorm"), ("transformer/", ""),
   ("intermediate/dense/", ""),
   ("ffn/intermediate/output/dense/", "ffn_output/"),
   ("/output/", "/"), ("/self/", "/"), ("pooler/dense", "pooler"),
   ("cls/predictions", "predictions"), ("predictions/attention", "predictions"),
   ("embeddings/attention", "embeddings"),
   ("inner_group_", "albert_layers/"), ("group_", "albert_layer_groups/")]

/-- Embedding of the renaming block of `load_tf_weights_in_albert`
(lines 74-107), transcribed replacement by replacement, followed by the
`classifier/` prefix that is added when the name has a single
slash-separated component containing `output_bias` or `output_weights`
(lines 106-107). -/
def renameAlbert (name : List Char) : List Char :=
  let name := replaceAll "module/".data "".data name
  let name := replaceAll "ffn_1".data "ffn".data name
  let name := replaceAll "bert/".data "albert/".data name
  let name := replaceAll "attention_1".data "attention".data name
  let name := replaceAll "transform/".data "".data name
  let name := replaceAll "LayerNorm_1".data "full_layer_layer_norm".data name
  let name := replaceAll "LayerNorm".data "attention/LayerNorm".data name
  let name := replaceAll "transformer/".data "".data name
  let name := replaceAll "intermediate/dense/".data "".data name
  let name := replaceAll "ffn/intermediate/output/dense/".data "ffn_output/".data name
  let name := replaceAll "/output/".data "/".data name
  let name := replaceAll "/self/".data "/".data name
  let name := replaceAll "pooler/dense".data "pooler".data name
  let name := replaceAll "cls/predictions".data "predictions".data name
  let name := replaceAll "predictions/attention".data "predictions".data name
  let name := replaceAll "embeddings/attention".data "embeddings".data name
  let name := replaceAll "inner_group_".data "albert_layers/".data name
  let name := replaceAll "group_".data "albert_layer_groups/".data name
  if (name.splitOn '/').length == 1 &&
      (containsSub "output_bias".data name || containsSub "output_weights".data name) then
    "classifier/".data ++ name
  else
    name

/-- The claim's description of the remapping: fold the fixed ordered
substitution list over the name, then apply the classifier-prefix rule. -/
def renameAlbertSpec (name : List Char) : List Char :=
  let m := albertNameSubs.foldl (fun acc p => replaceAll p.1.data p.2.data acc) name
  if (m.splitOn '/').length == 1 &&
      (containsSub "output_bias".data m || containsSub "output_weights".data m) then
    "classifier/".data ++ m
  else
    m

/-- The eighteen replacements written as one explicit composition
(proof intermediary between the let-chain and the list fold). -/
def albertSubChain (s : List Char) : List Char :=
  replaceAll "group_".data "albert_layer_groups/".data
   (replaceAll "inner_group_".data "albert_layers/".data
    (replaceAll "embeddings/attention".data "embeddings".data
     (replaceAll "predictions/attention".data "predictions".data
      (replaceAll "cls/predictions".data "predictions".data
       (replaceAll "pooler/dense".data "pooler".data
        (replaceAll "/self/".data "/".data
         (replaceAll "/output/".data "/".data
          (replaceAll "ffn/intermediate/output/dense/".data "ffn_output/".data
           (replaceAll "intermediate/dense/".data "".data
            (replaceAll "transformer/".data "".data
             (replaceAll "LayerNorm".data "attention/LayerNorm".data
              (replaceAll "LayerNorm_1".data "full_layer_layer_norm".data
               (replaceAll "transform/".data "".data
                (replaceAll "attention_1".data "attention".data
                 (replaceAll "bert/".data "albert/".data
                  (replaceAll "ffn_1".data "ffn".data
                   (replaceAll "module/".data "".data s)))))))))))))))))

/-! ## load_tf_weights_in_albert: skipping and the main loop (lines 109-157)

The walk of the module tree (`getattr` chains) and the final assignment
are abstracted into a parameter `assign`, which receives the slash-split
remapped name and the checkpoint array and either returns the updated
model or fails (the shape assertion); the skip tests and the loop
structure are transcribed from the source. -/

/-- A checkpoint variable is skipped when its remapped name contains
`seq_relationship` (line 110) or its slash-split path has a component
`adam_m`, `adam_v` or `global_step` (line 116). -/
def skipVar (raw : List Char) : Bool :=
  let name := renameAlbert raw
  containsSub "seq_relationship".data name ||
    (let parts := name.splitOn '/'
     parts.contains "adam_m".data || parts.contains "adam_v".data ||
       parts.contains "global_step".data)

/-- Processing of one checkpoint variable `(name, array)` in the loop of
`load_tf_weights_in_albert` (lines 70-156): remap the name, `continue`
on the two skip tests, otherwise resolve and assign via `assign`. -/
def processVar {M A E : Type} (assign : M → List (List Char) → A → Except E M)
    (m : M) (v : List Char × A) : Except E M :=
  let name := renameAlbert v.1
  if containsSub "seq_relationship".data name then Except.ok m
  else
    let parts := name.splitOn '/'
    if parts.contains "adam_m".data || parts.contains "adam_v".data ||
        parts.contains "global_step".data then Except.ok m
    else assign m parts v.2

/-- The loop `for name, array in zip(names, arrays)` of
`load_tf_weights_in_albert`: process the variables in order, stopping at
the first raised error. -/
def loadTFWeights {M A E : Type} (assign : M → List (List Char) → A → Except E M) :
    M → List (List Char × A) → Except E M
  | m, [] => Except.ok m
  | m, v :: rest =>
    match processVar assign m v with
    | Except.ok m' => loadTFWeights assign m' rest
    | Except.error e => Except.error e

/-! ## load_tf_weights_in_albert: shape guard (lines 145-156)

`pointerShape` is the shape of the resolved model parameter (after the
`_embeddings` weight redirect of lines 145-146); `arrayShape` the shape
of the checkpoint array; `np.transpose` reverses the axis order;
`m_name` is the last slash-separated component, the loop variable left
over from the attribute walk. -/

/-- The shape the checkpoint array has at the assert: reversed by
`np.transpose` exactly when the `elif m_name == 'kernel'` branch is taken
(the `if m_name[-11:] == '_embeddings'` branch redirects the pointer and
leaves the array alone). -/
def resolvedArrayShape (m_name : List Char) (arrayShape : List ℕ) : List ℕ :=
  if ¬ List.isSuffixOf "_embeddings".data m_name ∧ m_name = "kernel".data then
    arrayShape.reverse
  else
    arrayShape

/-- Embedding of lines 145-156: transpose for `kernel`, then
`assert pointer.shape == array.shape`; on failure an `AssertionError`
carrying both shapes is raised (`e.args += (pointer.shape, array.shape)`)
and no assignment happens; on success `pointer.data` receives the array. -/
def finalizeAssign (m_name : List Char) (pointerShape arrayShape : List ℕ) :
    Except (List ℕ × List ℕ) (List ℕ) :=
  let arr := if ¬ List.isSuffixOf "_embeddings".data m_name ∧ m_name = "kernel".data then
    arrayShape.reverse
  else
    arrayShape
  if pointerShape = arr then Except.ok arr
  else Except.error (pointerShape, arr)

/-! ## AlbertForQuestionAnswering.forward: logits construction (lines 776-783)

Tensors are total functions on `Fin`-indexed coordinates, so the shape of
every tensor is carried by its type.  `nn.Linear` is
`y j = sum k, W j k * x k + b j`. -/

/-- Semantics of `nn.Linear` applied to one vector. -/
def linearF {In Out : ℕ} (W : Fin Out → Fin In → ℚ) (b : Fin Out → ℚ)
    (x : Fin In → ℚ) : Fin Out → ℚ :=
  fun j => (∑ k, W j k * x k) + b j

/-- Embedding of `logits = self.qa_outputs(sequence_output)` (line 778): the linear
layer applied at every (batch, sequence) coordinate. -/
def qaLogits {B S H n : ℕ} (W : Fin n → Fin H → ℚ) (bv : Fin n → ℚ)
    (seqOut : Fin B → Fin S → Fin H → ℚ) : Fin B → Fin S → Fin n → ℚ :=
  fun b s => linearF W bv (seqOut b s)

/-- Embedding of `logits.split(1, dim=-1)` piece `k` followed by `squeeze(-1)`
(lines 779-781): the split slices the last dimension into width-1 pieces
and the squeeze drops that dimension, leaving entry `(b, s) = t b s k`. -/
def splitSqueeze {B S n : ℕ} (t : Fin B → Fin S → Fin n → ℚ) (k : Fin n) :
    Fin B → Fin S → ℚ :=
  fun b s => t b s k

/-- The start/end score construction of
`AlbertForQuestionAnswering.forward` (lines 778-781). -/
def qaHeadForward {B S H : ℕ} (W : Fin 2 → Fin H → ℚ) (bv : Fin 2 → ℚ)
    (seqOut : Fin B → Fin S → Fin H → ℚ) :
    (Fin B → Fin S → ℚ) × (Fin B → Fin S → ℚ) :=
  let logits := qaLogits W bv seqOut
  (splitSqueeze logits 0, splitSqueeze logits 1)

/-- The claim's description: start scores are channel 0 and end scores
channel 1 of the two-output linear layer, directly per coordinate. -/
def qaHeadSpec {B S H : ℕ} (W : Fin 2 → Fin H → ℚ) (bv : Fin 2 → ℚ)
    (seqOut : Fin B → Fin S → Fin H → ℚ) :
    (Fin B → Fin S → ℚ) × (Fin B → Fin S → ℚ) :=
  (fun b s => (∑ h, W 0 h * seqOut b s h) + bv 0,
   fun b s => (∑ h, W 1 h * seqOut b s h) + bv 1)

/-! ## AlbertForQuestionAnswering.forward: loss (lines 784-801)

Batched logits are lists of rows; label tensors are lists of integers.
`torch.nn.CrossEntropyLoss(ignore_index=ig)` with the default mean
reduction is modelled with an abstract per-row loss `f` (the negative
log-softmax at the target): rows whose target equals `ig` are dropped and
the remaining per-row losses are averaged. -/

/-- Semantics of `Tensor.clamp_(0, S)` on one element. -/
def clampPos (S : ℕ) (p : ℤ) : ℤ := max 0 (min (S : ℤ) p)

/-- Embedding of `start_logits.size(1)` for a (batch, sequence) list-of-rows tensor. -/
def seqLen (t : List (List ℚ)) : ℕ := (t.headD []).length

/-- Model of `torch.nn.CrossEntropyLoss(ignore_index=ig)` (mean
reduction) with abstract per-row loss `f`. -/
def ceWithIgnore (f : List ℚ → ℤ → ℚ) (ig : ℤ)
    (logits : List (List ℚ)) (tgt : List ℤ) : ℚ :=
  let pairs := (logits.zip tgt).filter (fun p => p.2 != ig)
  ((pairs.map (fun p => f p.1 p.2)).sum) / pairs.length

/-- Embedding of the loss block of `AlbertForQuestionAnswering.forward`
(lines 784-799): only when both position tensors are present, clamp each
into `[0, ignored_index]` with `ignored_index = start_logits.size(1)`,
and return `(start_loss + end_loss) / 2`; otherwise no loss is produced
(`squeeze(-1)` does not change the stored label values, so it is the
identity on the data lists). -/
def qaLossTail (f : List ℚ → ℤ → ℚ) (sl el : List (List ℚ))
    (sp ep : Option (List ℤ)) : Option ℚ :=
  match sp, ep with
  | some s, some e =>
    let ig := seqLen sl
    let s := s.map (clampPos ig)
    let e := e.map (clampPos ig)
    some ((ceWithIgnore f (ig : ℤ) sl s + ceWithIgnore f (ig : ℤ) el e) / 2)
  | _, _ => none

/-! ## AlbertForSequenceClassification.forward (lines 679-708)

`pooled` is the (batch, hidden) pooled output; dropout is an abstract
function parameter (identity in eval mode, random scaling in training);
`MSELoss` (mean reduction) and `CrossEntropyLoss` without ignore index
are modelled over the zipped rows, `CrossEntropyLoss` again with an
abstract per-row loss.  Labels are the raw tensor values (class indices
for classification, targets for regression). -/

/-- Dot product of two equally long lists. -/
def dotL (xs ys : List ℚ) : ℚ := ((xs.zip ys).map (fun p => p.1 * p.2)).sum

/-- Semantics of `nn.Linear` on a list vector: row `j` of the weight against `x`,
plus the bias. -/
def linVecL (W : List (List ℚ)) (bv : List ℚ) (x : List ℚ) : List ℚ :=
  (W.zip bv).map (fun p => dotL p.1 x + p.2)

/-- Model of `torch.nn.MSELoss()` (mean reduction) on flattened inputs. -/
def mseLoss (x y : List ℚ) : ℚ :=
  (((x.zip y).map (fun p => (p.1 - p.2) ^ 2)).sum) / (x.zip y).length

/-- Model of `torch.nn.CrossEntropyLoss()` (mean reduction, nothing
ignored) with abstract per-row loss `f`. -/
def ceMean (f : List ℚ → ℚ → ℚ) (logits : List (List ℚ)) (tgt : List ℚ) : ℚ :=
  (((logits.zip tgt).map (fun p => f p.1 p.2)).sum) / (logits.zip tgt).length

/-- Embedding of `logits = self.classifier(self.dropout(pooled_output))`
(lines 693-694). -/
def seqClsLogits (W : List (List ℚ)) (bv : List ℚ)
    (drop : List (List ℚ) → List (List ℚ)) (pooled : List (List ℚ)) :
    List (List ℚ) :=
  (drop pooled).map (linVecL W bv)

/-- Embedding of the tail of `AlbertForSequenceClassification.forward`
(lines 693-708): build the logits, then, only when labels are given,
the regression (`num_labels == 1`, MSE on the flattened logits) or
classification (cross entropy on `(-1, num_labels)`-shaped logits) loss.
`view(-1)` is list flattening (`List.flatten`); `view(-1, num_labels)` on a
`(batch, num_labels)` tensor is the identity. -/
def seqClsForwardTail (f : List ℚ → ℚ → ℚ) (numLabels : ℕ)
    (W : List (List ℚ)) (bv : List ℚ)
    (drop : List (List ℚ) → List (List ℚ)) (pooled : List (List ℚ))
    (labels : Option (List ℚ)) : Option ℚ × List (List ℚ) :=
  let logits := seqClsLogits W bv drop pooled
  match labels with
  | none => (none, logits)
  | some lab =>
    if numLabels = 1 then (some (mseLoss logits.flatten lab), logits)
    else (some (ceMean f logits lab), logits)

/-! ## AlbertModel.forward: input selection and defaults (lines 504-547)

The embeddings/encoder/pooler pipeline downstream of the input handling
is abstracted into `rest`, which receives the selected input shape, the
extended attention mask and the token-type ids; the input checks, the
default tensors and the extended-mask arithmetic are concrete. -/

/-- Embedding of `input_ids.size()` for a (batch, sequence) integer tensor. -/
def shape2Z (t : List (List ℤ)) : List ℕ := [t.length, (t.headD []).length]

/-- Embedding of `inputs_embeds.size()` for a (batch, sequence, hidden) tensor. -/
def shape3Q (t : List (List (List ℚ))) : List ℕ :=
  [t.length, (t.headD []).length, ((t.headD []).headD []).length]

/-- Semantics of `torch.ones(input_shape)` for a two-dimensional shape. -/
def ones2 (shape : List ℕ) : List (List ℚ) :=
  List.replicate (shape.getD 0 0) (List.replicate (shape.getD 1 0) 1)

/-- Semantics of `torch.zeros(input_shape, dtype=torch.long)` for a two-dimensional
shape. -/
def zeros2 (shape : List ℕ) : List (List ℤ) :=
  List.replicate (shape.getD 0 0) (List.replicate (shape.getD 1 0) 0)

/-- Embedding of `extended_attention_mask = (1.0 - attention_mask) * -10000.0`
(lines 523-525); the two `unsqueeze` calls only add broadcast dimensions
and are absorbed into the coordinates. -/
def extendMask (am : List (List ℚ)) : List (List ℚ) :=
  am.map (fun row => row.map (fun x => (1 - x) * (-10000)))

/-- Embedding of the input handling of `AlbertModel.forward`
(lines 504-547): `ValueError` when both or neither of `input_ids` and
`inputs_embeds` are given; otherwise the input shape comes from
`input_ids.size()` or `inputs_embeds.size()[:-1]`, a missing attention
mask defaults to ones and missing token-type ids to zeros of that shape,
and the downstream pipeline `rest` is run. -/
def albertModelForward {O : Type}
    (rest : List ℕ → List (List ℚ) → List (List ℤ) → O)
    (inputIds : Option (List (List ℤ))) (attentionMask : Option (List (List ℚ)))
    (tokenTypeIds : Option (List (List ℤ)))
    (inputsEmbeds : Option (List (List (List ℚ)))) : Except String O :=
  match inputIds, inputsEmbeds with
  | some _, some _ =>
    Except.error "You cannot specify both input_ids and inputs_embeds at the same time"
  | some ids, none =>
    let inputShape := shape2Z ids
    let am := attentionMask.getD (ones2 inputShape)
    let tt := tokenTypeIds.getD (zeros2 inputShape)
    Except.ok (rest inputShape (extendMask am) tt)
  | none, some emb =>
    let inputShape := (shape3Q emb).dropLast
    let am := attentionMask.getD (ones2 inputShape)
    let tt := tokenTypeIds.getD (zeros2 inputShape)
    Except.ok (rest inputShape (extendMask am) tt)
  | none, none =>
    Except.error "You have to specify either input_ids or inputs_embeds"

/-! ## AlbertAttention.forward: output projection (lines 236-250)

`context_layer` (after the `permute`) is a (batch, seq, heads, head_size)
tensor; `dense.weight` is a (hidden, all_head_size) matrix with
`all_head_size = num_heads * head_size`. -/

/-- Row-major flattening `(n, d) ↦ n * D + d` of a head/head-dimension
pair, as used by both `view` calls. -/
def flatIdx {N D : ℕ} (n : Fin N) (d : Fin D) : Fin (N * D) :=
  ⟨n.1 * D + d.1, by
    have h1 := n.2
    have h2 := d.2
    calc n.1 * D + d.1 < n.1 * D + D := by omega
      _ = (n.1 + 1) * D := by ring
      _ ≤ N * D := Nat.mul_le_mul_right D h1⟩

/-- Embedding of `w = self.dense.weight.t().view(num_heads, head_size, hidden_size)`
(line 244): the transpose makes entry `(k, h)` equal `weight h k`, and
the row-major `view` sends coordinates `(n, d, h)` to flat position
`(n * D + d) * H + h`, i.e. `w n d h = weight h (n * D + d)`. -/
def wReshaped {N D H : ℕ} (weight : Fin H → Fin (N * D) → ℚ) :
    Fin N → Fin D → Fin H → ℚ :=
  fun n d h => weight h (flatIdx n d)

/-- Embedding of `projected_context_layer = torch.einsum("bfnd,ndh->bfh", context_layer, w) + b`
(line 247). -/
def projectedContextLayer {B F N D H : ℕ}
    (ctx : Fin B → Fin F → Fin N → Fin D → ℚ)
    (weight : Fin H → Fin (N * D) → ℚ) (bias : Fin H → ℚ) :
    Fin B → Fin F → Fin H → ℚ :=
  fun b f h => (∑ n, ∑ d, ctx b f n d * wReshaped weight n d h) + bias h

/-- Embedding of `reshaped_context_layer = context_layer.view(*new_context_layer_shape)`
(lines 239-240): the row-major un-flattening of the last two dimensions. -/
def reshapedContextLayer {B F N D : ℕ}
    (ctx : Fin B → Fin F → Fin N → Fin D → ℚ) :
    Fin B → Fin F → Fin (N * D) → ℚ :=
  fun b f k => ctx b f k.divNat k.modNat

/-- Embedding of `self.dense` applied to a (batch, seq, all_head_size) tensor. -/
def denseApplied {B F ND H : ℕ} (weight : Fin H → Fin ND → ℚ)
    (bias : Fin H → ℚ) (x : Fin B → Fin F → Fin ND → ℚ) :
    Fin B → Fin F → Fin H → ℚ :=
  fun b f h => (∑ k, weight h k * x b f k) + bias h

/-! ## AlbertForQuestionAnswering.forward: label-tensor mutation (784-793)

A PyTorch long tensor is its shape metadata plus its storage.
`squeeze(-1)` (line 787) is not in place: it rebinds the local variable
to a fresh view sharing the storage, so the caller's shape is untouched;
`clamp_` (lines 792-793) writes that shared storage in place. -/

/-- A long tensor: shape metadata plus flat storage. -/
structure LongTensor where
  shape : List ℕ
  data : List ℤ
deriving DecidableEq

/-- The caller's label tensor after the call: `clamp_(0, ignored_index)`
wrote the storage (through the squeezed view when the tensor had more
than one dimension), the shape metadata is unchanged. -/
def qaCallerPositionsAfter (S : ℕ) (t : LongTensor) : LongTensor :=
  ⟨t.shape, t.data.map (clampPos S)⟩

/-- The claim's reading, in which the squeeze is itself in place: a
tensor with more than one dimension would also lose its trailing
dimension. -/
def qaCallerPositionsClaimed (S : ℕ) (t : LongTensor) : LongTensor :=
  if t.shape.length > 1 then ⟨t.shape.dropLast, t.data.map (clampPos S)⟩
  else ⟨t.shape, t.data.map (clampPos S)⟩

/-- The frame of `AlbertForQuestionAnswering.forward` on its input
tensors: the label tensors are mutated (only when both are present, lines
784-793), every other input tensor is untouched — `clamp_` is the only
in-place operation in the function body. -/
def qaForwardFrame (S : ℕ) (others : List LongTensor)
    (sp ep : Option LongTensor) :
    List LongTensor × Option LongTensor × Option LongTensor :=
  match sp, ep with
  | some s, some e =>
    (others, some (qaCallerPositionsAfter S s), some (qaCallerPositionsAfter S e))
  | _, _ => (others, sp, ep)

/-! # Theorems -/

/-- Rounding an integer to the nearest integer is the identity. -/
theorem rnEven_intCast (n : ℤ) : rnEven (n : ℚ) = n := by
  unfold rnEven
  norm_num [Int.floor_intCast]

/-- Round-to-nearest moves a value by at most one half. -/
theorem abs_rnEven_sub (y : ℚ) : |(rnEven y : ℚ) - y| ≤ 1 / 2 := by
  have h0 : (⌊y⌋ : ℚ) ≤ y := Int.floor_le y
  have h1 : y < ⌊y⌋ + 1 := Int.lt_floor_add_one y
  unfold rnEven
  split_ifs with ha hb hc
  · rw [abs_sub_le_iff]
    constructor <;> linarith
  · rw [abs_sub_le_iff]
    push_cast
    constructor <;> linarith
  · rw [abs_sub_le_iff]
    constructor <;> linarith
  · rw [abs_sub_le_iff]
    push_cast
    constructor <;> linarith

/-- Correctness of the doubling search for `0 < x < 2` with enough fuel. -/
theorem lg2Down_spec : ∀ (fuel : ℕ) (x : ℚ), 0 < x → x < 2 →
    (1 : ℚ) ≤ 2 ^ fuel * x →
    (2 : ℚ) ^ lg2Down fuel x ≤ x ∧ x < (2 : ℚ) ^ (lg2Down fuel x + 1) := by
  intro fuel
  induction fuel with
  | zero =>
    intro x _ h2 h1
    rw [pow_zero, one_mul] at h1
    unfold lg2Down
    constructor
    · simpa using h1
    · simpa using h2
  | succ fuel ih =>
    intro x hx h2 h1
    by_cases hx1 : 1 ≤ x
    · unfold lg2Down
      rw [if_pos hx1]
      constructor
      · simpa using hx1
      · simpa using h2
    · push_neg at hx1
      have h2x : 2 * x < 2 := by linarith
      have h1x : (1 : ℚ) ≤ 2 ^ fuel * (2 * x) := by
        calc (1 : ℚ) ≤ 2 ^ (fuel + 1) * x := h1
          _ = 2 ^ fuel * (2 * x) := by ring
      obtain ⟨hl, hr⟩ := ih (2 * x) (by linarith) h2x h1x
      unfold lg2Down
      rw [if_neg (not_le.mpr hx1)]
      have hpow : (2 : ℚ) ^ (lg2Down fuel (2 * x) - 1) =
          2 ^ lg2Down fuel (2 * x) / 2 := by
        rw [zpow_sub₀ (by norm_num : (2 : ℚ) ≠ 0), zpow_one]
      constructor
      · rw [hpow]
        linarith
      · rw [sub_add_cancel]
        have hr' : 2 * x < 2 ^ lg2Down fuel (2 * x) * 2 := by
          rw [← zpow_add_one₀ (by norm_num : (2 : ℚ) ≠ 0)]
          exact hr
        linarith

/-- Correctness of the halving search for `1 ≤ x` with enough fuel. -/
theorem lg2Up_spec : ∀ (fuel : ℕ) (x : ℚ), 1 ≤ x → x < 2 ^ fuel →
    (2 : ℚ) ^ lg2Up fuel x ≤ x ∧ x < (2 : ℚ) ^ (lg2Up fuel x + 1) := by
  intro fuel
  induction fuel with
  | zero =>
    intro x hx h2
    rw [pow_zero] at h2
    linarith
  | succ fuel ih =>
    intro x hx h2
    by_cases hx2 : x < 2
    · unfold lg2Up
      rw [if_pos hx2]
      constructor
      · simpa using hx
      · simpa using hx2
    · push_neg at hx2
      have hhalf1 : (1 : ℚ) ≤ x / 2 := by linarith
      have hhalf2 : x / 2 < 2 ^ fuel := by
        rw [pow_succ] at h2
        linarith
      obtain ⟨hl, hr⟩ := ih (x / 2) hhalf1 hhalf2
      unfold lg2Up
      rw [if_neg (not_lt.mpr hx2)]
      have hps : (2 : ℚ) ^ (lg2Up fuel (x / 2) + 1) =
          2 ^ lg2Up fuel (x / 2) * 2 := zpow_add_one₀ (by norm_num) _
      have hps2 : (2 : ℚ) ^ (lg2Up fuel (x / 2) + 1 + 1) =
          2 ^ (lg2Up fuel (x / 2) + 1) * 2 := zpow_add_one₀ (by norm_num) _
      constructor
      · rw [hps]
        linarith
      · rw [hps2, hps]
        linarith

/-- The binary exponent brackets every positive rational:
`2 ^ qlog2 x ≤ x < 2 ^ (qlog2 x + 1)`. -/
theorem qlog2_spec (x : ℚ) (hx : 0 < x) :
    (2 : ℚ) ^ qlog2 x ≤ x ∧ x < (2 : ℚ) ^ (qlog2 x + 1) := by
  unfold qlog2
  by_cases h1 : 1 ≤ x
  · rw [if_pos h1]
    apply lg2Up_spec _ _ h1
    have hnum : 0 < x.num := Rat.num_pos.mpr hx
    have hden : (1 : ℚ) ≤ (x.den : ℚ) := by
      exact_mod_cast x.den_pos
    have hxle : x ≤ (x.num.natAbs : ℚ) := by
      have hcast : (x.num.natAbs : ℚ) = (x.num : ℚ) := by
        rw [Int.cast_natAbs]
        exact_mod_cast abs_of_nonneg hnum.le
      rw [hcast]
      conv_lhs => rw [← Rat.num_div_den x]
      apply div_le_self (by exact_mod_cast hnum.le) hden
    have hlt : (x.num.natAbs : ℚ) < 2 ^ x.num.natAbs := by
      exact_mod_cast Nat.lt_two_pow x.num.natAbs
    linarith
  · rw [if_neg h1]
    push_neg at h1
    apply lg2Down_spec _ _ hx (by linarith)
    have hdlt : (x.den : ℚ) < 2 ^ x.den := by
      exact_mod_cast Nat.lt_two_pow x.den
    have hdpos : (0 : ℚ) < (x.den : ℚ) := by exact_mod_cast x.den_pos
    have hnum1 : (1 : ℚ) ≤ (x.num : ℚ) := by
      have : (0 : ℤ) < x.num := Rat.num_pos.mpr hx
      exact_mod_cast this
    have hxge : 1 / (x.den : ℚ) ≤ x := by
      calc 1 / (x.den : ℚ) ≤ (x.num : ℚ) / (x.den : ℚ) :=
            (div_le_div_right hdpos).mpr hnum1
        _ = x := Rat.num_div_den x
    calc (1 : ℚ) = (x.den : ℚ) * (1 / (x.den : ℚ)) := by field_simp
      _ ≤ 2 ^ x.den * (1 / (x.den : ℚ)) :=
          mul_le_mul_of_nonneg_right hdlt.le (by positivity)
      _ ≤ 2 ^ x.den * x := mul_le_mul_of_nonneg_left hxge (by positivity)

/-- The binary64 rounding error is below half an ulp:
`|flPos x - x| ≤ x / 2 ^ 53`. -/
theorem abs_flPos_sub (x : ℚ) (hx : 0 < x) : |flPos x - x| ≤ x / 2 ^ 53 := by
  obtain ⟨hl, hr⟩ := qlog2_spec x hx
  unfold flPos
  set e := qlog2 x with he
  set y := x * (2 : ℚ) ^ (52 - e) with hy
  have hsc : (0 : ℚ) < (2 : ℚ) ^ (e - 52) := by positivity
  have hx_eq : (rnEven y : ℚ) * (2 : ℚ) ^ (e - 52) - x =
      ((rnEven y : ℚ) - y) * (2 : ℚ) ^ (e - 52) := by
    rw [sub_mul]
    congr 1
    rw [hy, mul_assoc, ← zpow_add₀ (by norm_num : (2 : ℚ) ≠ 0)]
    norm_num
  rw [hx_eq, abs_mul, abs_of_pos hsc]
  have h1 : |(rnEven y : ℚ) - y| ≤ 1 / 2 := abs_rnEven_sub y
  have hstep : |(rnEven y : ℚ) - y| * (2 : ℚ) ^ (e - 52) ≤
      1 / 2 * (2 : ℚ) ^ (e - 52) :=
    mul_le_mul_of_nonneg_right h1 hsc.le
  have hhalf : 1 / 2 * (2 : ℚ) ^ (e - 52) = (2 : ℚ) ^ (e - 53) := by
    rw [show e - 53 = e - 52 - 1 by ring,
      zpow_sub₀ (by norm_num : (2 : ℚ) ≠ 0) (e - 52) 1, zpow_one]
    ring
  have hfinal : (2 : ℚ) ^ (e - 53) ≤ x / 2 ^ 53 := by
    have h53 : (2 : ℚ) ^ (e - 53) = (2 : ℚ) ^ e / (2 : ℚ) ^ (53 : ℤ) := by
      rw [zpow_sub₀ (by norm_num : (2 : ℚ) ≠ 0)]
    have hcastpow : ((2 : ℚ) ^ (53 : ℤ)) = (2 : ℚ) ^ (53 : ℕ) := by
      norm_num
    rw [h53, hcastpow]
    exact (div_le_div_right (by positivity)).mpr hl
  calc |(rnEven y : ℚ) - y| * (2 : ℚ) ^ (e - 52) ≤
      1 / 2 * (2 : ℚ) ^ (e - 52) := hstep
    _ = (2 : ℚ) ^ (e - 53) := hhalf
    _ ≤ x / 2 ^ 53 := hfinal

/-- Integers below `2 ^ 53` are exactly representable in binary64. -/
theorem flPos_natCast (k : ℕ) (h0 : 0 < k) (hk : k < 2 ^ 53) :
    flPos (k : ℚ) = k := by
  have hkq : (0 : ℚ) < (k : ℚ) := by exact_mod_cast h0
  obtain ⟨hl, hr⟩ := qlog2_spec (k : ℚ) hkq
  set e := qlog2 (k : ℚ) with he
  have hk1 : (1 : ℚ) ≤ (k : ℚ) := by exact_mod_cast h0
  have he0 : 0 ≤ e := by
    by_contra hneg
    push_neg at hneg
    have hle : (2 : ℚ) ^ (e + 1) ≤ (2 : ℚ) ^ (0 : ℤ) :=
      zpow_le_zpow_right₀ (by norm_num) (by omega)
    rw [zpow_zero] at hle
    linarith
  have he52 : e ≤ 52 := by
    by_contra hgt
    push_neg at hgt
    have hle : (2 : ℚ) ^ (53 : ℤ) ≤ (2 : ℚ) ^ e :=
      zpow_le_zpow_right₀ (by norm_num) (by omega)
    have hkcast : ((2 ^ 53 : ℕ) : ℚ) ≤ (k : ℚ) := by
      calc ((2 ^ 53 : ℕ) : ℚ) = (2 : ℚ) ^ (53 : ℤ) := by norm_num
        _ ≤ (2 : ℚ) ^ e := hle
        _ ≤ (k : ℚ) := hl
    have : (2 ^ 53 : ℕ) ≤ k := by exact_mod_cast hkcast
    omega
  set m : ℤ := (k : ℤ) * 2 ^ (52 - e).toNat with hm
  have hy : (k : ℚ) * (2 : ℚ) ^ (52 - e) = (m : ℚ) := by
    rw [hm]
    push_cast
    rw [← zpow_natCast (2 : ℚ) (52 - e).toNat, Int.toNat_of_nonneg (by omega)]
  have hflPos : flPos (k : ℚ) =
      (rnEven ((k : ℚ) * (2 : ℚ) ^ (52 - e)) : ℚ) * (2 : ℚ) ^ (e - 52) := by
    rw [he]
    rfl
  rw [hflPos, hy, rnEven_intCast, ← hy, mul_assoc,
    ← zpow_add₀ (by norm_num : (2 : ℚ) ≠ 0)]
  norm_num

/-- On positive inputs `fl64` is `flPos`. -/
theorem fl64_of_pos (x : ℚ) (hx : 0 < x) : fl64 x = flPos x := by
  unfold fl64
  rw [if_neg (ne_of_gt hx), if_neg (not_lt.mpr hx.le)]

/-- Integers below `2 ^ 53` survive binary64 rounding unchanged. -/
theorem fl64_natCast (k : ℕ) (h0 : 0 < k) (hk : k < 2 ^ 53) :
    fl64 (k : ℚ) = k := by
  rw [fl64_of_pos _ (by exact_mod_cast h0)]
  exact flPos_natCast k h0 hk

/-- When the group count divides the layer count the float computation is
exact: `int(i / (L / G)) = i * G / L`. -/
theorem groupIdx_eq_div_of_dvd (L G i : ℕ) (hG : 0 < G) (hdvd : G ∣ L)
    (hL : L < 2 ^ 53) (hi : i < L) : groupIdx L G i = i * G / L := by
  obtain ⟨k, hk⟩ := hdvd
  have hk0 : 0 < k := by
    rcases Nat.eq_zero_or_pos k with h0 | h0
    · subst h0
      rw [Nat.mul_zero] at hk
      omega
    · exact h0
  have hkL : k ≤ L := by
    rw [hk]
    exact Nat.le_mul_of_pos_left k hG
  have hGq : (G : ℚ) ≠ 0 := by positivity
  have hkq : (k : ℚ) ≠ 0 := by positivity
  have hdivq : (L : ℚ) / (G : ℚ) = (k : ℚ) := by
    rw [hk]
    push_cast
    rw [mul_comm, mul_div_assoc, div_self hGq, mul_one]
  have hflk : fl64 ((L : ℚ) / (G : ℚ)) = (k : ℚ) := by
    rw [hdivq]
    exact fl64_natCast k hk0 (lt_of_le_of_lt hkL hL)
  unfold groupIdx
  rw [hflk]
  have htarget : i * G / L = i / k := by
    rw [hk, Nat.mul_comm i G]
    exact Nat.mul_div_mul_left i k hG
  rw [htarget]
  rcases Nat.eq_zero_or_pos i with hi0 | hi0
  · subst hi0
    norm_num [fl64]
  by_cases hdvd2 : k ∣ i
  · obtain ⟨q, hq⟩ := hdvd2
    have hq0 : 0 < q := by
      rcases Nat.eq_zero_or_pos q with h0 | h0
      · subst h0
        omega
      · exact h0
    have hx : (i : ℚ) / (k : ℚ) = (q : ℚ) := by
      rw [hq]
      push_cast
      rw [mul_comm, mul_div_assoc, div_self hkq, mul_one]
    rw [hx, fl64_natCast q hq0 (by
      have hqi : q ≤ i := by
        rw [hq]
        exact Nat.le_mul_of_pos_left q hk0
      omega)]
    rw [hq, Nat.floor_natCast, Nat.mul_div_cancel_left q hk0]
  · set q := i / k with hqdef
    set r := i % k with hrdef
    have hiqr : i = k * q + r := (Nat.div_add_mod i k).symm
    have hr0 : 0 < r := by
      rw [hrdef]
      exact Nat.pos_of_ne_zero (fun h => hdvd2 (Nat.dvd_of_mod_eq_zero h))
    have hrk : r < k := Nat.mod_lt i hk0
    have hiq : (0 : ℚ) < (i : ℚ) := by exact_mod_cast hi0
    have hkqpos : (0 : ℚ) < (k : ℚ) := by exact_mod_cast hk0
    have hxpos : (0 : ℚ) < (i : ℚ) / (k : ℚ) := div_pos hiq hkqpos
    rw [fl64_of_pos _ hxpos]
    have herr := abs_flPos_sub _ hxpos
    set x := (i : ℚ) / (k : ℚ) with hxdef
    have hxval : x = (q : ℚ) + (r : ℚ) / (k : ℚ) := by
      rw [hxdef, show ((i : ℚ)) = (k : ℚ) * (q : ℚ) + (r : ℚ) by
        exact_mod_cast congrArg (Nat.cast : ℕ → ℚ) hiqr]
      field_simp
      ring
    have hiub : (i : ℚ) < 2 ^ 53 := by
      have : i < 2 ^ 53 := lt_trans hi hL
      exact_mod_cast this
    have hr1 : (1 : ℚ) ≤ (r : ℚ) := by exact_mod_cast hr0
    have hrk' : (r : ℚ) + 1 ≤ (k : ℚ) := by exact_mod_cast hrk
    have hxsmall : x / 2 ^ 53 < 1 / (k : ℚ) := by
      rw [div_lt_div_iff (by positivity) hkqpos]
      calc x * (k : ℚ) = (i : ℚ) := by
            rw [hxdef]
            field_simp
        _ < 2 ^ 53 := hiub
        _ = 1 * 2 ^ 53 := (one_mul _).symm
    have habs := abs_le.mp herr
    have hinvr : 1 / (k : ℚ) ≤ (r : ℚ) / (k : ℚ) :=
      (div_le_div_right hkqpos).mpr hr1
    have hfl_lb : (q : ℚ) ≤ flPos x := by
      have h2 : x / 2 ^ 53 ≤ (r : ℚ) / (k : ℚ) :=
        le_trans hxsmall.le hinvr
      have h1 : x - x / 2 ^ 53 ≤ flPos x := by linarith [habs.1]
      linarith [hxval]
    have hfl_ub : flPos x < (q : ℚ) + 1 := by
      have h1 : flPos x ≤ x + x / 2 ^ 53 := by linarith [habs.2]
      have h3 : (r : ℚ) / (k : ℚ) + 1 / (k : ℚ) ≤ 1 := by
        rw [div_add_div_same, div_le_one hkqpos]
        linarith
      have h2 : x + x / 2 ^ 53 < (q : ℚ) + 1 := by
        rw [hxval]
        linarith [hxsmall]
      linarith
    have h0fl : (0 : ℚ) ≤ flPos x := le_trans (by positivity) hfl_lb
    refine (Nat.floor_eq_iff h0fl).mpr ⟨hfl_lb, ?_⟩
    linarith

/-- Under divisibility the group index stays below the group count. -/
theorem groupIdx_lt_of_dvd (L G i : ℕ) (hG : 0 < G) (hdvd : G ∣ L)
    (hL : L < 2 ^ 53) (hi : i < L) : groupIdx L G i < G := by
  rw [groupIdx_eq_div_of_dvd L G i hG hdvd hL hi]
  have hL0 : 0 < L := Nat.zero_lt_of_lt hi
  rw [Nat.div_lt_iff_lt_mul hL0]
  calc i * G < L * G := Nat.mul_lt_mul_of_pos_right hi hG
    _ = G * L := Nat.mul_comm L G

/-- The claim's exact-arithmetic formula equals natural division. -/
theorem groupIdxExact_eq_div (L G i : ℕ) : groupIdxExact L G i = i * G / L := by
  unfold groupIdxExact
  rcases Nat.eq_zero_or_pos G with hG | hG
  · subst hG
    simp
  rcases Nat.eq_zero_or_pos L with hL | hL
  · subst hL
    simp
  have hLq : (L : ℚ) ≠ 0 := Nat.cast_ne_zero.mpr (Nat.pos_iff_ne_zero.mp hL)
  have hGq : (G : ℚ) ≠ 0 := Nat.cast_ne_zero.mpr (Nat.pos_iff_ne_zero.mp hG)
  have hdiv : (i : ℚ) / ((L : ℚ) / (G : ℚ)) = ((i * G : ℕ) : ℚ) / ((L : ℕ) : ℚ) := by
    push_cast
    field_simp
  rw [hdiv, Nat.floor_div_nat, Nat.floor_natCast]

set_option maxRecDepth 100000 in
/-- C1 counterexample: at `num_hidden_layers = 18`,
`num_hidden_groups = 14`, iteration `i = 9`, the program's float
computation `int(9 / (18 / 14))` truncates `6.999999999999999` to 6,
while the claim's `floor(i / (L / G))` is 7. -/
theorem groupIdx_float_counterexample :
    (transformerTrace 18 14).getD 9 0 = 6 ∧ groupIdxExact 18 14 9 = 7 ∧
      (transformerTrace 18 14).getD 9 0 ≠ groupIdxExact 18 14 9 := by
  with_unfolding_all decide

/-- C1 (amended): for configurations where `num_hidden_groups` is
positive, divides `num_hidden_layers`, and `num_hidden_layers < 2 ^ 53`
(all published ALBERT configurations), `AlbertTransformer.forward`
applies a layer-group module exactly `num_hidden_layers` times;
iteration `i` uses the group with index
`floor(i / (num_hidden_layers / num_hidden_groups))` — the float
computation being exact in this case — a valid index below
`num_hidden_groups`; and whenever there are more hidden layers than
groups, two distinct iterations use the same group module (parameter
sharing).  Without the divisibility restriction the float-computed index
can fall below the exact floor. -/
theorem albertTransformer_parameter_sharing (L G : ℕ) (hG : 0 < G)
    (hdvd : G ∣ L) (hL : L < 2 ^ 53) :
    (transformerTrace L G).length = L ∧
    (∀ {α : Type} (embedMap : α → α) (groups : ℕ → α → α) (h : α),
      albertTransformerForward L G embedMap groups h =
        (transformerTrace L G).foldl (fun s k => groups k s) (embedMap h)) ∧
    (∀ i, i < L →
      (transformerTrace L G).getD i 0 = groupIdx L G i ∧
      groupIdx L G i = groupIdxExact L G i ∧ groupIdx L G i < G) ∧
    (G < L → ∃ i j, i < j ∧ j < L ∧ groupIdx L G i = groupIdx L G j) := by
  refine ⟨by simp [transformerTrace], ?_, ?_, ?_⟩
  · intro α embedMap groups h
    simp [albertTransformerForward, transformerTrace, List.foldl_map]
  · intro i hi
    refine ⟨by simp [transformerTrace, List.getD_eq_getElem?_getD, hi], ?_, ?_⟩
    · rw [groupIdx_eq_div_of_dvd L G i hG hdvd hL hi, groupIdxExact_eq_div]
    · exact groupIdx_lt_of_dvd L G i hG hdvd hL hi
  · intro hLG
    have hcard : (Finset.range G).card < (Finset.range L).card := by
      simpa using hLG
    have hmaps : ∀ a ∈ Finset.range L, groupIdx L G a ∈ Finset.range G := by
      intro a ha
      exact Finset.mem_range.mpr
        (groupIdx_lt_of_dvd L G a hG hdvd hL (Finset.mem_range.mp ha))
    obtain ⟨x, hx, y, hy, hne, heq⟩ :=
      Finset.exists_ne_map_eq_of_card_lt_of_maps_to hcard hmaps
    rcases lt_or_gt_of_ne hne with h1 | h1
    · exact ⟨x, y, h1, Finset.mem_range.mp hy, heq⟩
    · exact ⟨y, x, h1, Finset.mem_range.mp hx, heq.symm⟩

/-- Witness for the amended C1 at `num_hidden_layers = 12`,
`num_hidden_groups = 1` (the standard ALBERT configuration). -/
theorem albertTransformer_parameter_sharing_witness :
    (transformerTrace 12 1).length = 12 ∧
    (∀ {α : Type} (embedMap : α → α) (groups : ℕ → α → α) (h : α),
      albertTransformerForward 12 1 embedMap groups h =
        (transformerTrace 12 1).foldl (fun s k => groups k s) (embedMap h)) ∧
    (∀ i, i < 12 →
      (transformerTrace 12 1).getD i 0 = groupIdx 12 1 i ∧
      groupIdx 12 1 i = groupIdxExact 12 1 i ∧ groupIdx 12 1 i < 1) ∧
    (1 < 12 → ∃ i j, i < j ∧ j < 12 ∧ groupIdx 12 1 i = groupIdx 12 1 j) :=
  albertTransformer_parameter_sharing 12 1 (by decide) (by decide) (by decide)

/-- The list fold of the substitutions equals the explicit composition. -/
theorem albertNameSubs_foldl_eq (s : List Char) :
    albertNameSubs.foldl (fun acc p => replaceAll p.1.data p.2.data acc) s =
      albertSubChain s := by
  rw [albertNameSubs]
  simp only [List.foldl_cons, List.foldl_nil]
  rfl

/-- C2: the checkpoint-name remapping is the deterministic pure function
obtained by applying the eighteen literal substring replacements in the
fixed source order and then the classifier-prefix rule; the output
depends only on the input name. -/
theorem renameAlbert_is_fixed_substitution_chain :
    albertNameSubs.length = 18 ∧
      ∀ name, renameAlbert name = renameAlbertSpec name := by
  refine ⟨rfl, fun name => ?_⟩
  unfold renameAlbertSpec
  rw [albertNameSubs_foldl_eq name]
  rfl

/-- Characterisation of `processVar` in terms of the skip test. -/
theorem processVar_eq_ite {M A E : Type}
    (assign : M → List (List Char) → A → Except E M) (m : M) (v : List Char × A) :
    processVar assign m v =
      if skipVar v.1 then Except.ok m
      else assign m ((renameAlbert v.1).splitOn '/') v.2 := by
  unfold processVar skipVar
  by_cases h1 : containsSub "seq_relationship".data (renameAlbert v.1) = true
  · simp only [h1, if_true, Bool.true_or, if_pos]
  · by_cases h2 : (((renameAlbert v.1).splitOn '/').contains "adam_m".data ||
        ((renameAlbert v.1).splitOn '/').contains "adam_v".data ||
        ((renameAlbert v.1).splitOn '/').contains "global_step".data) = true
    · simp [h1, h2]
    · simp [h1, h2]

/-- C4: skipped checkpoint variables assign nothing and leave the model
unchanged, and the whole conversion of a variable list equals the
conversion of just the non-skipped variables. -/
theorem loadTFWeights_skipped_leave_model_unchanged
    (M A E : Type) (assign : M → List (List Char) → A → Except E M) :
    (∀ (m : M) (v : List Char × A), skipVar v.1 = true →
        processVar assign m v = Except.ok m) ∧
    (∀ (m : M) (vars : List (List Char × A)),
        loadTFWeights assign m vars =
          loadTFWeights assign m (vars.filter (fun v => !skipVar v.1))) := by
  constructor
  · intro m v hskip
    rw [processVar_eq_ite, if_pos hskip]
  · intro m vars
    induction vars generalizing m with
    | nil => rfl
    | cons v rest ih =>
      by_cases h : skipVar v.1
      · have hp : processVar assign m v = Except.ok m := by
          rw [processVar_eq_ite, if_pos h]
        have hfilter : (v :: rest).filter (fun x => !skipVar x.1) =
            rest.filter (fun x => !skipVar x.1) := by
          simp [List.filter_cons, h]
        rw [hfilter]
        simp only [loadTFWeights, hp]
        exact ih m
      · have hfilter : (v :: rest).filter (fun x => !skipVar x.1) =
            v :: rest.filter (fun x => !skipVar x.1) := by
          simp [List.filter_cons, h]
        rw [hfilter]
        simp only [loadTFWeights]
        cases hv : processVar assign m v with
        | ok m' => exact ih m'
        | error e => rfl

/-- Witness for C4 at the concrete skipped variable name `global_step`. -/
theorem loadTFWeights_skipped_witness :
    processVar (fun (m : Unit) (_ : List (List Char)) (_ : Unit) =>
        (Except.ok m : Except Unit Unit)) () ("global_step".data, ()) =
      Except.ok () :=
  (loadTFWeights_skipped_leave_model_unchanged Unit Unit Unit
      (fun m _ _ => Except.ok m)).1 () ("global_step".data, ()) (by decide)

/-- C3: the checkpoint array (transposed when the final name component is
`kernel`) is assigned exactly when its shape equals the resolved
parameter's shape; on a mismatch the raised error carries both shapes and
nothing is assigned. -/
theorem finalizeAssign_shape_guard (m_name : List Char) (p a : List ℕ) :
    finalizeAssign m_name p a =
      (if p = resolvedArrayShape m_name a then
        Except.ok (resolvedArrayShape m_name a)
      else
        Except.error (p, resolvedArrayShape m_name a)) ∧
    ((∃ v, finalizeAssign m_name p a = Except.ok v) ↔
      p = resolvedArrayShape m_name a) := by
  have h : finalizeAssign m_name p a =
      if p = resolvedArrayShape m_name a then
        Except.ok (resolvedArrayShape m_name a)
      else
        Except.error (p, resolvedArrayShape m_name a) := rfl
  refine ⟨h, ?_⟩
  rw [h]
  by_cases hp : p = resolvedArrayShape m_name a
  · simp [hp]
  · simp [hp]

/-- C5: the span-extraction head's start scores are channel 0 and its end
scores channel 1 of the two-output `qa_outputs` linear layer applied to
the final hidden states; each result is a (batch, sequence) tensor, which
the `Fin`-indexed types carry. -/
theorem qaHead_split_squeeze_channels {B S H : ℕ} (W : Fin 2 → Fin H → ℚ)
    (bv : Fin 2 → ℚ) (seqOut : Fin B → Fin S → Fin H → ℚ) :
    qaHeadForward W bv seqOut = qaHeadSpec W bv seqOut := rfl

/-- C8: `AlbertModel.forward` rejects calls with both or neither of
`input_ids` and `inputs_embeds` with the two `ValueError` messages, and a
missing attention mask (resp. token-type ids) behaves exactly as an
explicit all-ones (resp. all-zeros) tensor of the input shape, on both
input paths. -/
theorem albertModel_input_selection {O : Type}
    (rest : List ℕ → List (List ℚ) → List (List ℤ) → O) :
    (∀ ids emb am tt, albertModelForward rest (some ids) am tt (some emb) =
      Except.error "You cannot specify both input_ids and inputs_embeds at the same time") ∧
    (∀ am tt, albertModelForward rest none am tt none =
      Except.error "You have to specify either input_ids or inputs_embeds") ∧
    (∀ ids tt, albertModelForward rest (some ids) none tt none =
      albertModelForward rest (some ids) (some (ones2 (shape2Z ids))) tt none) ∧
    (∀ ids am, albertModelForward rest (some ids) am none none =
      albertModelForward rest (some ids) am (some (zeros2 (shape2Z ids))) none) ∧
    (∀ emb tt, albertModelForward rest none none tt (some emb) =
      albertModelForward rest none (some (ones2 ((shape3Q emb).dropLast))) tt (some emb)) ∧
    (∀ emb am, albertModelForward rest none am none (some emb) =
      albertModelForward rest none am (some (zeros2 ((shape3Q emb).dropLast))) (some emb)) :=
  ⟨fun _ _ _ _ => rfl, fun _ _ => rfl, fun _ _ => rfl, fun _ _ => rfl,
   fun _ _ => rfl, fun _ _ => rfl⟩

/-- Clamping lands in `[0, S]`. -/
theorem clampPos_bounds (S : ℕ) (x : ℤ) :
    0 ≤ clampPos S x ∧ clampPos S x ≤ (S : ℤ) := by
  unfold clampPos
  constructor
  · exact le_max_left 0 _
  · exact max_le (Int.natCast_nonneg S) (min_le_left _ _)

/-- C6: with both position tensors present the loss is
`(CE(start) + CE(end)) / 2` on positions clamped into
`[0, sequence_length]` with `ignore_index = sequence_length`; a row whose
target equals the ignore index contributes nothing to `ceWithIgnore`;
with either tensor absent no loss is produced. -/
theorem qaLoss_clamped_ignored_halved (f : List ℚ → ℤ → ℚ)
    (sl el : List (List ℚ)) (s e : List ℤ) :
    (qaLossTail f sl el (some s) (some e) =
      some ((ceWithIgnore f (seqLen sl) sl (s.map (clampPos (seqLen sl))) +
             ceWithIgnore f (seqLen sl) el (e.map (clampPos (seqLen sl)))) / 2)) ∧
    (∀ x ∈ s.map (clampPos (seqLen sl)), 0 ≤ x ∧ x ≤ (seqLen sl : ℤ)) ∧
    (∀ (ig : ℤ) (l₁ l₂ : List (List ℚ)) (t₁ t₂ : List ℤ) (r : List ℚ),
      l₁.length = t₁.length →
      ceWithIgnore f ig (l₁ ++ r :: l₂) (t₁ ++ ig :: t₂) =
        ceWithIgnore f ig (l₁ ++ l₂) (t₁ ++ t₂)) ∧
    (∀ ep, qaLossTail f sl el none ep = none) ∧
    (∀ sp, qaLossTail f sl el sp none = none) := by
  refine ⟨rfl, ?_, ?_, ?_, ?_⟩
  · intro x hx
    obtain ⟨y, _, rfl⟩ := List.mem_map.mp hx
    exact clampPos_bounds (seqLen sl) y
  · intro ig l₁ l₂ t₁ t₂ r hlen
    unfold ceWithIgnore
    rw [List.zip_append hlen, List.zip_append hlen]
    simp [List.filter_append, List.filter_cons]
  · intro ep
    cases ep <;> rfl
  · intro sp
    cases sp <;> rfl

/-- Witness for C6: a concrete row whose target equals the ignore index
drops out of the loss. -/
theorem qaLoss_ignored_row_witness :
    ceWithIgnore (fun row t => row.headD 0 + t) 2 [[1, 2], [3, 4]] [2, 0] =
      ceWithIgnore (fun row t => row.headD 0 + t) 2 [[3, 4]] [0] :=
  (qaLoss_clamped_ignored_halved (fun row t => row.headD 0 + t)
      [[0]] [[0]] [0] [0]).2.2.1 2 [] [[3, 4]] [] [0] [1, 2] rfl

/-- C7: the sequence-classification logits are the classifier applied to
the dropout-processed pooled output; with labels the loss is the MSE of
the flattened logits for `num_labels = 1` and otherwise the cross
entropy; without labels no loss is produced. -/
theorem seqCls_loss_selection (f : List ℚ → ℚ → ℚ) (numLabels : ℕ)
    (W : List (List ℚ)) (bv : List ℚ)
    (drop : List (List ℚ) → List (List ℚ)) (pooled : List (List ℚ)) :
    (seqClsForwardTail f numLabels W bv drop pooled none =
      (none, (drop pooled).map (linVecL W bv))) ∧
    (∀ lab, numLabels = 1 →
      seqClsForwardTail f numLabels W bv drop pooled (some lab) =
        (some (mseLoss ((drop pooled).map (linVecL W bv)).flatten lab),
         (drop pooled).map (linVecL W bv))) ∧
    (∀ lab, numLabels ≠ 1 →
      seqClsForwardTail f numLabels W bv drop pooled (some lab) =
        (some (ceMean f ((drop pooled).map (linVecL W bv)) lab),
         (drop pooled).map (linVecL W bv))) := by
  refine ⟨rfl, ?_, ?_⟩
  · intro lab h
    subst h
    rfl
  · intro lab h
    simp [seqClsForwardTail, seqClsLogits, h]

/-- Witness for C7 in the regression branch (`num_labels = 1`). -/
theorem seqCls_regression_witness :
    seqClsForwardTail (fun _ _ => 0) 1 [[1]] [0] id [[2]] (some [3]) =
      (some (mseLoss (([[2]] : List (List ℚ)).map (linVecL [[1]] [0])).flatten [3]),
       ([[2]] : List (List ℚ)).map (linVecL [[1]] [0])) :=
  (seqCls_loss_selection (fun _ _ => 0) 1 [[1]] [0] id [[2]]).2.1 [3] rfl

/-- C9: the einsum projection with the transposed-and-reshaped dense
weight equals the dense linear layer applied to the flattened
(reshaped) context layer. -/
theorem einsum_projection_eq_dense {B F N D H : ℕ}
    (ctx : Fin B → Fin F → Fin N → Fin D → ℚ)
    (weight : Fin H → Fin (N * D) → ℚ) (bias : Fin H → ℚ) :
    projectedContextLayer ctx weight bias =
      denseApplied weight bias (reshapedContextLayer ctx) := by
  funext b f h
  unfold projectedContextLayer denseApplied reshapedContextLayer wReshaped
  congr 1
  rw [← Equiv.sum_comp finProdFinEquiv
    (fun k : Fin (N * D) => weight h k * ctx b f k.divNat k.modNat)]
  rw [Fintype.sum_prod_type]
  refine Finset.sum_congr rfl (fun n _ => Finset.sum_congr rfl (fun d _ => ?_))
  have hsymm : (finProdFinEquiv (n, d) : Fin (N * D)).divNat = n ∧
      (finProdFinEquiv (n, d) : Fin (N * D)).modNat = d := by
    have hs := Equiv.symm_apply_apply finProdFinEquiv (n, d)
    exact ⟨congrArg Prod.fst hs, congrArg Prod.snd hs⟩
  have hflat : (finProdFinEquiv (n, d) : Fin (N * D)) = flatIdx n d := by
    apply Fin.ext
    show d.1 + D * n.1 = n.1 * D + d.1
    ring
  rw [hsymm.1, hsymm.2, hflat, mul_comm]

/-- C10 counterexample: `squeeze(-1)` is not in place, so a caller tensor
of shape `[2, 1]` keeps that shape; under the claim's reading it would
come back with shape `[2]`. -/
theorem qaPositions_claimed_squeeze_counterexample :
    qaCallerPositionsAfter 4 ⟨[2, 1], [9, -1]⟩ ≠
      qaCallerPositionsClaimed 4 ⟨[2, 1], [9, -1]⟩ := by decide

/-- C10 (amended): with both label tensors present, `clamp_` mutates the
caller's tensors in place into `[0, sequence_length]` (through a squeezed
view when they have more than one dimension, so the caller's shape
metadata is unchanged); no other input tensor of the call is modified,
and nothing is mutated when either label tensor is absent. -/
theorem qaForwardFrame_clamp_in_place (S : ℕ) (others : List LongTensor)
    (sp ep : LongTensor) :
    (qaForwardFrame S others (some sp) (some ep) =
      (others, some ⟨sp.shape, sp.data.map (clampPos S)⟩,
               some ⟨ep.shape, ep.data.map (clampPos S)⟩)) ∧
    (∀ x ∈ (qaCallerPositionsAfter S sp).data, 0 ≤ x ∧ x ≤ (S : ℤ)) ∧
    (qaForwardFrame S others none (some ep) = (others, none, some ep)) ∧
    (qaForwardFrame S others (some sp) none = (others, some sp, none)) ∧
    (qaForwardFrame S others none none = (others, none, none)) := by
  refine ⟨rfl, ?_, rfl, rfl, rfl⟩
  intro x hx
  obtain ⟨y, _, rfl⟩ := List.mem_map.mp hx
  exact clampPos_bounds S y

/-- Witness for C10 at a concrete out-of-range position. -/
theorem qaForwardFrame_clamp_witness :
    0 ≤ clampPos 4 9 ∧ clampPos 4 9 ≤ ((4 : ℕ) : ℤ) :=
  (qaForwardFrame_clamp_in_place 4 [] ⟨[2], [9, -1]⟩ ⟨[2], [0, 0]⟩).2.1
    (clampPos 4 9) (by decide)

end Albert
